import Mathlib

/-!
Shallow embedding of the `matching-address` repository (Vietnamese address
province matching) and proofs about it.

The repository contains two extraction algorithms sharing the same candidate
search:
* `src/src/province_comparator.py` — `ProvinceComparator`, whose
  `extract_province` ranks candidates by `(position, is_word_boundary, length)`
  ascending and takes the last (rightmost-match ranking), plus
  `compare_provinces` / `compare_address_pair`;
* `compare_address_pairs.py` and `gradio_app.py` — a scoring-based
  `extract_province` (identical in the two files) that normalizes Vietnamese
  text first and picks the maximum-score candidate, plus the batch CSV row
  loop `process_csv`.

Modelling conventions:
* Python strings are `List Char` (`Str`).  `str.lower()` is modelled
  character-wise by `Char.toLower` (ASCII case folding; the claims under
  study only concern ASCII case).
* The regex `(?:^|D)(variant)(?:D|$)` (where `D` is the delimiter class of whitespace, comma, semicolon, period, hyphen, slash) is modelled by an
  explicit leftmost search `wbSearch`; `\s` is modelled by the six ASCII
  whitespace characters Python's `re` matches on ASCII text.
* Python dicts (insertion-ordered, assignment updates in place) are
  association lists built with `dinsert`.
* CPython floats in the scoring matcher are modelled as exact rationals `ℚ`;
  at the magnitudes the program produces the two agree on every comparison
  that decides a winner.
* `unicodedata.normalize('NFC', ·)` is modelled as the identity (inputs are
  taken to be composed); the case-pattern-sensitive `Hoà → Hòa` replacements
  of `normalize_vietnamese` are modelled exactly by `replace3`.
* `json.load` of the ground-truth file yields a mapping official-name →
  variant list; it is modelled as an explicit association list `GroundTruth`
  and all theorems are proved for an arbitrary such list.
-/

abbrev Str := List Char

/-- Model of Python `str.lower()` applied character-wise (ASCII case folding). -/
def pyToLower (c : Char) : Char := c.toLower

/-- Characters matched by `\s` in Python's `re` on ASCII text:
space, tab, newline, carriage return, vertical tab, form feed. -/
def isPySpace (c : Char) : Bool :=
  c == ' ' || c == '\t' || c == '\n' || c == '\r' || c == '\x0b' || c == '\x0c'

/-- The delimiter class (whitespace, comma, semicolon, period, hyphen, slash) of the word-boundary regex in
`extract_province`. -/
def isDelim (c : Char) : Bool :=
  isPySpace c || c == ',' || c == ';' || c == '.' || c == '-' || c == '/'

/-- Whether `pat` occurs in `s` starting exactly at offset `i`. -/
def matchAt (s pat : Str) (i : ℕ) : Bool := pat.isPrefixOf (s.drop i)

/-- Whether the character of `s` at offset `p` exists and is a delimiter. -/
def delimAt (s : Str) (p : ℕ) : Bool :=
  match s[p]? with
  | some c => isDelim c
  | none => false

/-- The trailing part `(?:D|$)` of the boundary regex, checked at
offset `j`. -/
def rightBoundOk (s : Str) (j : ℕ) : Bool := j == s.length || delimAt s j

/-- Whether the whole boundary regex `(?:^|D)(pat)(?:D|$)` matches `s`,
with the whole match
starting at offset `p` (as `re.Match.start()` reports it: the leading
delimiter, when present, is part of the match). -/
def boundaryHit (s pat : Str) (p : ℕ) : Bool :=
  (p == 0 && matchAt s pat 0 && rightBoundOk s pat.length) ||
  (delimAt s p && matchAt s pat (p + 1) && rightBoundOk s (p + 1 + pat.length))

/-- Model of `re.search(boundary pattern, s)`: the start offset of the
leftmost match, if any. -/
def wbSearch (s pat : Str) : Option ℕ :=
  (List.range (s.length + 1)).find? (boundaryHit s pat)

/-- Model of Python `s.find(pat)` (and of `pat in s`, via `Option.isSome`):
the least offset at which `pat` occurs in `s`. -/
def subFind (s pat : Str) : Option ℕ :=
  (List.range (s.length + 1)).find? (fun i => matchAt s pat i)

/-- The candidate probe shared by every `extract_province` in the repository:
try the word-boundary regex first; otherwise, only when the raw variant
string has at least 4 characters, try a bare substring search.  Returns the
recorded offset together with the `is_word_boundary` flag. -/
def findMatch (al vRaw vLower : Str) : Option (ℕ × Bool) :=
  match wbSearch al vLower with
  | some p => some (p, true)
  | none =>
    if 4 ≤ vRaw.length then (subFind al vLower).map (fun p => (p, false))
    else none

/-! ### Python dictionaries as insertion-ordered association lists -/

abbrev Dict := List (Str × Str)

/-- Model of Python `d[k] = v`: update the (unique) existing entry in place,
else append a new entry at the end. -/
def dinsert : Dict → Str → Str → Dict
  | [], k, v => [(k, v)]
  | p :: rest, k, v => if p.1 = k then (k, v) :: rest else p :: dinsert rest k v

/-- Model of Python `d.get(k)` / `k in d`: value of the first entry whose key
is `k`. -/
def dlookup : Dict → Str → Option Str
  | [], _ => none
  | p :: rest, k => if p.1 = k then some p.2 else dlookup rest k

/-- The parsed `tinh_thanh.json` ground truth: official province name →
list of variant strings, in file order. -/
abbrev GroundTruth := List (Str × List Str)

/-- Model of the `variant_to_official` construction in
`ProvinceComparator.__init__`: for each `(official, variants)` pair, in
order, insert `official`, `official.lower()`, then every `variant` and
`variant.lower()`, all mapped to `official`. -/
def variantToOfficial (G : GroundTruth) : Dict :=
  G.foldl
    (fun d pr =>
      let d1 := dinsert d pr.1 pr.1
      let d2 := dinsert d1 (pr.1.map pyToLower) pr.1
      pr.2.foldl (fun d v => dinsert (dinsert d v pr.1) (v.map pyToLower) pr.1) d2)
    []

/-- The legacy-designator tokens `['Tỉnh', 'Thành phố', 'TP']` tested with
Python's `in` (substring containment). -/
def legacyTokens : List Str := ["Tỉnh".toList, "Thành phố".toList, "TP".toList]

/-- Model of Python `pat in s` for strings. -/
def containsSub (s pat : Str) : Bool := (subFind s pat).isSome

/-- The guard `any(p in old_prov for p in ['Tỉnh', 'Thành phố', 'TP'])`. -/
def hasLegacyToken (s : Str) : Bool := legacyTokens.any (fun p => containsSub s p)

/-- The resolution step `self.variant_to_official.get(old_prov, old_prov)`. -/
def resolveOld (idx : Dict) (old : Str) : Str := (dlookup idx old).getD old

/-- The loop body of the `merged_provinces` construction for one variant
string `old` of the province `newP`: when `old` contains a legacy token,
record `resolvedOld → newP`, else leave the mapping unchanged. -/
def mergeInsert (idx : Dict) (newP : Str) (d : Dict) (old : Str) : Dict :=
  if hasLegacyToken old then dinsert d (resolveOld idx old) newP else d

/-- Model of the `merged_provinces` construction in
`ProvinceComparator.__init__`: for each `(newProvince, oldList)` pair of the
ground truth, every `old` in `oldList` whose literal text contains a legacy
token is resolved through the (already fully built) variant index and
`resolvedOld → newProvince` is recorded. -/
def mergedProvinces (G : GroundTruth) : Dict :=
  let idx := variantToOfficial G
  G.foldl (fun d pr => pr.2.foldl (mergeInsert idx pr.1) d) []

/-! ### The core (rightmost-match) extractor of `src/src/province_comparator.py` -/

/-- One entry of the `candidates` list built by
`ProvinceComparator.extract_province`. -/
structure Candidate where
  official : Str
  variant : Str
  position : ℕ
  boundary : Bool
  length : ℕ
deriving DecidableEq, Repr

/-- Numeric view of a Python `bool` used as a sort key (`False < True`). -/
def bN (b : Bool) : ℕ := if b then 1 else 0

/-- The ascending lexicographic order on the sort key
`(position, is_word_boundary, length)` used by
`candidates.sort(key=lambda x: (x['position'], x['is_word_boundary'], x['length']))`. -/
def candKeyLE (a b : Candidate) : Prop :=
  a.position < b.position ∨ (a.position = b.position ∧
    (bN a.boundary < bN b.boundary ∨ (bN a.boundary = bN b.boundary ∧ a.length ≤ b.length)))

instance : DecidableRel candKeyLE := fun a b => by unfold candKeyLE; infer_instance

instance : IsTotal Candidate candKeyLE := ⟨by intro a b; unfold candKeyLE; omega⟩

instance : IsTrans Candidate candKeyLE := ⟨by
  intro a b c hab hbc; unfold candKeyLE at *; omega⟩

instance : IsRefl Candidate candKeyLE := ⟨by intro a; unfold candKeyLE; omega⟩

/-- The candidate list of `ProvinceComparator.extract_province`, in
dictionary iteration order: each `(variant, official)` entry of
`variant_to_official` contributes at most one candidate via the shared probe
`findMatch`. -/
def candsCore (G : GroundTruth) (al : Str) : List Candidate :=
  (variantToOfficial G).filterMap
    (fun vo =>
      (findMatch al vo.1 (vo.1.map pyToLower)).map
        (fun pb => ⟨vo.2, vo.1, pb.1, pb.2, vo.1.length⟩))

/-- The tail of `ProvinceComparator.extract_province` after the address has
been lowercased: build candidates, stable-sort ascending by
`(position, is_word_boundary, length)`, return the official name of the last
candidate (`candidates[-1]`), or `None` when there are no candidates. -/
def extractLowerCore (G : GroundTruth) (al : Str) : Option Str :=
  ((List.insertionSort candKeyLE (candsCore G al)).getLast?).map Candidate.official

/-- Model of `ProvinceComparator.extract_province` of
`src/src/province_comparator.py`.  A falsy address (`None` or `""`, both
modelled by `[]`) returns `None` immediately; otherwise the whole
computation only depends on `address.lower()`. -/
def extractProvince (G : GroundTruth) (addr : Str) : Option Str :=
  if addr.isEmpty then none else extractLowerCore G (addr.map pyToLower)

/-! ### `compare_provinces` of `src/src/province_comparator.py` -/

/-- Python truthiness of an optional string (`None` and `""` are falsy). -/
def truthy : Option Str → Bool
  | none => false
  | some s => !s.isEmpty

/-- Reason string `"Một trong hai tỉnh không xác định được"`. -/
def undeterminedMsg : Str := "Một trong hai tỉnh không xác định được".toList

/-- Reason string `"Exact match"`. -/
def exactMsg : Str := "Exact match".toList

/-- Reason f-string `"Match: {a} đã sáp nhập vào {b}"`. -/
def mergedIntoMsg (a b : Str) : Str :=
  "Match: ".toList ++ a ++ " đã sáp nhập vào ".toList ++ b

/-- Reason f-string `"Match: Cả 2 đều sáp nhập vào {c}"`. -/
def bothMergedMsg (c : Str) : Str :=
  "Match: Cả 2 đều sáp nhập vào ".toList ++ c

/-- Reason f-string `"Mismatch: {a} ≠ {b}"`. -/
def mismatchMsg (a b : Str) : Str :=
  "Mismatch: ".toList ++ a ++ " ≠ ".toList ++ b

/-- Model of `ProvinceComparator.compare_provinces`, with its exact check
order: falsy guard, string equality, `prov1` merged into `prov2`, `prov2`
merged into `prov1`, both merged into the same new province, mismatch. -/
def compareProvinces (G : GroundTruth) (p1 p2 : Option Str) : Bool × Str :=
  if (truthy p1 && truthy p2) = false then (false, undeterminedMsg)
  else
    let a := p1.getD []
    let b := p2.getD []
    if a = b then (true, exactMsg)
    else
      let m := mergedProvinces G
      match dlookup m a, dlookup m b with
      | some ma, mb? =>
        if ma = b then (true, mergedIntoMsg a b)
        else
          match mb? with
          | some mb =>
            if mb = a then (true, mergedIntoMsg b a)
            else if ma = mb then (true, bothMergedMsg ma)
            else (false, mismatchMsg a b)
          | none => (false, mismatchMsg a b)
      | none, some mb =>
        if mb = a then (true, mergedIntoMsg b a) else (false, mismatchMsg a b)
      | none, none => (false, mismatchMsg a b)

/-! ### The scoring extractor of `compare_address_pairs.py` / `gradio_app.py` -/

/-- Replace every (leftmost, non-overlapping) occurrence of the 3-character
pattern `p1 p2 p3` by `r1 r2 r3`; model of Python `str.replace` for the
3-character patterns used by `normalize_vietnamese`. -/
def replace3 (p1 p2 p3 r1 r2 r3 : Char) : Str → Str
  | a :: b :: c :: rest =>
    if a = p1 ∧ b = p2 ∧ c = p3 then r1 :: r2 :: r3 :: replace3 p1 p2 p3 r1 r2 r3 rest
    else a :: replace3 p1 p2 p3 r1 r2 r3 (b :: c :: rest)
  | s => s

/-- Model of `normalize_vietnamese`: NFC normalization (identity on the
composed inputs modelled here) followed by the three case-pattern-sensitive
replacements `'Hoà' → 'Hòa'`, `'hoà' → 'hòa'`, `'HOÀ' → 'HÒA'`, in that
order. -/
def normalizeViet (s : Str) : Str :=
  replace3 'H' 'O' 'À' 'H' 'Ò' 'A'
    (replace3 'h' 'o' 'à' 'h' 'ò' 'a'
      (replace3 'H' 'o' 'à' 'H' 'ò' 'a' s))

/-- One candidate of the scoring extractor.  The Python code stores
`{official, variant, score}`; the match provenance (`position`, boundary
flag) that determines the score is kept explicit here and `scoreOf` computes
the score from it. -/
structure SCand where
  official : Str
  variant : Str
  position : ℕ
  boundary : Bool
deriving DecidableEq, Repr

/-- The score of a candidate, for an address of length `L`:
`len(variant_str) * 100`, `+1000` for a word-boundary match,
`+ match.start() / len(address_lower) * 50`, `+500` when the raw variant
contains a space.  Exact-rational model of the CPython float computation. -/
def scoreOf (L : ℕ) (c : SCand) : ℚ :=
  (c.variant.length : ℚ) * 100 + (if c.boundary then 1000 else 0) +
    (c.position : ℚ) / (L : ℚ) * 50 + (if c.variant.contains ' ' then 500 else 0)

/-- The candidate list of the scoring `extract_province`, in dictionary
iteration order; the probe compares the normalized, lowercased variant
against the normalized, lowercased address, while the `>= 4` length guard
and the score use the raw variant string. -/
def candsScored (G : GroundTruth) (al : Str) : List SCand :=
  (variantToOfficial G).filterMap
    (fun vo =>
      (findMatch al vo.1 ((normalizeViet vo.1).map pyToLower)).map
        (fun pb => ⟨vo.2, vo.1, pb.1, pb.2⟩))

/-- The descending comparison used by
`candidates.sort(key=lambda x: x['score'], reverse=True)`. -/
def scoredGE (L : ℕ) (a b : SCand) : Prop := scoreOf L b ≤ scoreOf L a

instance (L : ℕ) : DecidableRel (scoredGE L) := fun a b => by
  unfold scoredGE; infer_instance

instance (L : ℕ) : IsTotal SCand (scoredGE L) :=
  ⟨fun a b => le_total (scoreOf L b) (scoreOf L a)⟩

instance (L : ℕ) : IsTrans SCand (scoredGE L) :=
  ⟨fun _ _ _ hab hbc => le_trans hbc hab⟩

instance (L : ℕ) : IsRefl SCand (scoredGE L) := ⟨fun a => le_refl (scoreOf L a)⟩

/-- Model of `ProvinceComparator.extract_province` of
`compare_address_pairs.py` (identical to `ProvinceExtractor.extract_province`
of `gradio_app.py`): normalize and lowercase the address, build scored
candidates, stable-sort by score descending and return the official name of
the first candidate (`candidates[0]`), or `None` when there are none. -/
def extractProvinceScored (G : GroundTruth) (addr : Str) : Option Str :=
  if addr.isEmpty then none
  else
    ((List.insertionSort (scoredGE ((normalizeViet addr).map pyToLower).length)
        (candsScored G ((normalizeViet addr).map pyToLower))).head?).map SCand.official

/-! ### `compare_address_pair` and the batch row loop of `compare_address_pairs.py` -/

/-- Sentinel `"N/A"` used for an unresolved province in the result record. -/
def naMsg : Str := "N/A".toList

/-- Python `prov if prov else "N/A"`. -/
def displayProv : Option Str → Str
  | none => naMsg
  | some s => if s.isEmpty then naMsg else s

/-- One result record of `compare_address_pair` (the Python dict keys
`index`, `address1`, `address2`, `province1`, `province2`, `match`,
`reason`; `match` is renamed `matched` because `match` is a Lean keyword). -/
structure PairResult where
  index : Str
  address1 : Str
  address2 : Str
  province1 : Str
  province2 : Str
  matched : Bool
  reason : Str
deriving DecidableEq, Repr

/-- Model of `ProvinceComparator.compare_address_pair` of
`compare_address_pairs.py`: extract both provinces with the scoring
extractor, compare them, and assemble the record. -/
def compareAddressPair (G : GroundTruth) (a1 a2 idx : Str) : PairResult :=
  let p1 := extractProvinceScored G a1
  let p2 := extractProvinceScored G a2
  let mr := compareProvinces G p1 p2
  ⟨idx, a1, a2, displayProv p1, displayProv p2, mr.1, mr.2⟩

/-- Model of Python `str.strip()` (whitespace trimmed from both ends). -/
def pyStrip (s : Str) : Str :=
  ((s.dropWhile isPySpace).reverse.dropWhile isPySpace).reverse

/-- The two sentinel labels of column 4 that exclude a row. -/
def skipLabels : List Str := ["MISMATCH".toList, "Ambiguity".toList]

/-- The body of the `process_csv` row loop for a single CSV row: `None` when
the row is skipped (empty or fewer than 3 fields; or an explicit 4th-field
`MISMATCH` / `Ambiguity` label; or an address that is empty after
stripping), otherwise the record produced by `compare_address_pair` on the
stripped fields. -/
def rowResult (G : GroundTruth) (row : List Str) : Option PairResult :=
  if row.length < 3 then none
  else if 3 < row.length ∧ (row.getD 3 []) ∈ skipLabels then none
  else if pyStrip (row.getD 1 []) ≠ [] ∧ pyStrip (row.getD 2 []) ≠ [] then
    some (compareAddressPair G (pyStrip (row.getD 1 [])) (pyStrip (row.getD 2 []))
      (pyStrip (row.getD 0 [])))
  else none

/-- Model of the `process_csv` loop of `compare_address_pairs.py`: process
the rows in order, appending one record per retained row; a skipped row
continues with the remaining rows. -/
def processRows (G : GroundTruth) : List (List Str) → List PairResult
  | [] => []
  | row :: rest =>
    match rowResult G row with
    | some r => r :: processRows G rest
    | none => processRows G rest

/-! ### Helper lemmas: stable sorting and dictionaries -/

theorem sorted_getLast_max {α : Type} {r : α → α → Prop} [IsRefl α r] :
    ∀ (l : List α) (_ : List.Sorted r l) (hne : l ≠ []) (x : α), x ∈ l → r x (l.getLast hne)
  | [a], _, _, x, hx => by
      simp at hx; subst hx; exact IsRefl.refl _
  | a :: b :: t, h, _, x, hx => by
      rw [List.getLast_cons (by simp : b :: t ≠ [])]
      rcases List.mem_cons.mp hx with rfl | hx'
      · exact (List.pairwise_cons.mp h).1 _ (List.getLast_mem _)
      · exact sorted_getLast_max (b :: t) (List.pairwise_cons.mp h).2 (by simp) x hx'

theorem sorted_head_min {α : Type} {r : α → α → Prop} [IsRefl α r]
    (l : List α) (h : List.Sorted r l) (hne : l ≠ []) (x : α) (hx : x ∈ l) :
    r (l.head hne) x := by
  match l with
  | a :: t =>
    rcases List.mem_cons.mp hx with rfl | hx'
    · exact IsRefl.refl _
    · exact (List.pairwise_cons.mp h).1 _ hx'

theorem dlookup_dinsert (d : Dict) (k v k' : Str) :
    dlookup (dinsert d k v) k' = if k' = k then some v else dlookup d k' := by
  induction d with
  | nil =>
    by_cases h : k' = k
    · simp [dinsert, dlookup, h]
    · have h' : ¬k = k' := fun hh => h hh.symm
      simp [dinsert, dlookup, h, h']
  | cons p rest ih =>
    by_cases hpk : p.1 = k
    · by_cases h : k' = k
      · simp [dinsert, dlookup, hpk, h]
      · have h' : ¬k = k' := fun hh => h hh.symm
        have hp : ¬p.1 = k' := fun hh => h ((hh.symm).trans hpk)
        simp [dinsert, dlookup, hpk, h, h', hp]
    · by_cases h : p.1 = k'
      · have hk : ¬k' = k := fun hh => hpk (h.trans hh)
        simp [dinsert, dlookup, hpk, h, hk]
      · simp [dinsert, dlookup, hpk, h, ih]

theorem dinsert_snd_prop {P : Str → Prop} :
    ∀ {d : Dict}, (∀ e ∈ d, P e.2) → ∀ {k v : Str}, P v → ∀ e ∈ dinsert d k v, P e.2 := by
  intro d
  induction d with
  | nil => intro _ k v hv e he; simp [dinsert] at he; subst he; exact hv
  | cons p rest ih =>
    intro hd k v hv e he
    unfold dinsert at he
    split at he
    · rcases List.mem_cons.mp he with rfl | he'
      · exact hv
      · exact hd e (List.mem_cons_of_mem _ he')
    · rcases List.mem_cons.mp he with rfl | he'
      · exact hd e (List.mem_cons_self _ _)
      · exact ih (fun e' he' => hd e' (List.mem_cons_of_mem _ he')) hv e he'

theorem variantToOfficial_snd_mem (G : GroundTruth) :
    ∀ e ∈ variantToOfficial G, e.2 ∈ G.map Prod.fst := by
  have inner : ∀ (off : Str), off ∈ G.map Prod.fst → ∀ (vs : List Str) (d : Dict),
      (∀ e ∈ d, e.2 ∈ G.map Prod.fst) →
      ∀ e ∈ vs.foldl (fun d v => dinsert (dinsert d v off) (v.map pyToLower) off) d,
        e.2 ∈ G.map Prod.fst := by
    intro off hoff vs
    induction vs with
    | nil => intro d hd; exact hd
    | cons v vt ih =>
      intro d hd
      exact ih _ (dinsert_snd_prop (dinsert_snd_prop hd hoff) hoff)
  have outer : ∀ (G' : GroundTruth), (∀ pr ∈ G', pr.1 ∈ G.map Prod.fst) →
      ∀ (d : Dict), (∀ e ∈ d, e.2 ∈ G.map Prod.fst) →
      ∀ e ∈ G'.foldl
        (fun d pr =>
          let d1 := dinsert d pr.1 pr.1
          let d2 := dinsert d1 (pr.1.map pyToLower) pr.1
          pr.2.foldl (fun d v => dinsert (dinsert d v pr.1) (v.map pyToLower) pr.1) d2)
        d, e.2 ∈ G.map Prod.fst := by
    intro G'
    induction G' with
    | nil => intro _ d hd; exact hd
    | cons pr Gt ih =>
      intro hG d hd
      refine ih (fun q hq => hG q (List.mem_cons_of_mem _ hq)) _ ?_
      have hpr : pr.1 ∈ G.map Prod.fst := hG pr (List.mem_cons_self _ _)
      exact inner pr.1 hpr pr.2 _ (dinsert_snd_prop (dinsert_snd_prop hd hpr) hpr)
  intro e he
  exact outer G (fun pr hpr => List.mem_map_of_mem Prod.fst hpr) [] (by simp) e he

/-- Core fact about the rightmost-match extractor: a returned province is the
official name of a candidate whose sort key `(position, boundary, length)` is
lexicographically maximal among all candidates. -/
theorem extract_mem_cands {G : GroundTruth} {addr off : Str}
    (h : extractProvince G addr = some off) :
    ∃ c ∈ candsCore G (addr.map pyToLower), off = c.official ∧
      ∀ c' ∈ candsCore G (addr.map pyToLower), candKeyLE c' c := by
  unfold extractProvince at h
  split at h
  · simp at h
  · unfold extractLowerCore at h
    rcases hs : List.insertionSort candKeyLE (candsCore G (addr.map pyToLower)) with
      _ | ⟨a, t⟩
    · rw [hs] at h; simp at h
    · have hne : List.insertionSort candKeyLE (candsCore G (addr.map pyToLower)) ≠ [] := by
        rw [hs]; simp
      rw [List.getLast?_eq_getLast _ hne, Option.map_some'] at h
      have hoff := Option.some.inj h
      have hperm := List.perm_insertionSort candKeyLE (candsCore G (addr.map pyToLower))
      refine ⟨_, hperm.mem_iff.mp (List.getLast_mem hne), hoff.symm, ?_⟩
      intro c' hc'
      exact sorted_getLast_max _ (List.sorted_insertionSort candKeyLE _) hne c'
        (hperm.mem_iff.mpr hc')

/-! ### Concrete ground truths used by witnesses and counterexamples -/

/-- Tiny ground truth with two provinces and one 4-character variant each. -/
def G0 : GroundTruth :=
  [("Alpha".toList, ["abcd".toList]), ("Beta".toList, ["efgh".toList])]

/-- Address containing both `G0` variants, `efgh` first, `abcd` last. -/
def addr0 : Str := "efgh abcd".toList

/-! ### Claim theorems -/

/-- C1: rightmost-match ranking of the core matcher.  Whenever
`ProvinceComparator.extract_province` (the `(position, is_word_boundary,
length)`-ascending, take-last matcher of `src/src/province_comparator.py`)
returns a province, that province is the official name of a candidate whose
key `(position, is_word_boundary, length)` is lexicographically maximal among
all candidates: it has the greatest start offset, and the boundary flag and
variant length only break ties between candidates at the same offset. -/
theorem extract_province_rightmost (G : GroundTruth) (addr off : Str)
    (h : extractProvince G addr = some off) :
    ∃ c ∈ candsCore G (addr.map pyToLower), off = c.official ∧
      (∀ c' ∈ candsCore G (addr.map pyToLower), candKeyLE c' c) ∧
      (∀ c' ∈ candsCore G (addr.map pyToLower), c'.position ≤ c.position) := by
  obtain ⟨c, hc, hoff, hmax⟩ := extract_mem_cands h
  refine ⟨c, hc, hoff, hmax, fun c' hc' => ?_⟩
  rcases hmax c' hc' with h1 | ⟨h1, _⟩
  · exact Nat.le_of_lt h1
  · exact Nat.le_of_eq h1

/-- Witness for C1: on `G0` and the address `"efgh abcd"`, the extractor
returns `Alpha` (the owner of the rightmost candidate `abcd`), which indeed
dominates every candidate. -/
theorem extract_province_rightmost_witness :
    ∃ c ∈ candsCore G0 (addr0.map pyToLower), "Alpha".toList = c.official ∧
      (∀ c' ∈ candsCore G0 (addr0.map pyToLower), candKeyLE c' c) ∧
      (∀ c' ∈ candsCore G0 (addr0.map pyToLower), c'.position ≤ c.position) :=
  extract_province_rightmost G0 addr0 "Alpha".toList (by decide)

/-- C4: empty-input and no-match handling is total and non-erroring.  The
extractor returns `none` on an empty (or absent, both modelled by `[]`)
address; `compare_provinces` on any pair with a `None` or empty side returns
`(False, undetermined-reason)`; and `compare_provinces` produces a boolean
and a reason string for every pair of inputs. -/
theorem empty_input_total (G : GroundTruth) :
    extractProvince G [] = none ∧
    (∀ p q : Option Str,
      (p = none ∨ p = some [] ∨ q = none ∨ q = some []) →
      compareProvinces G p q = (false, undeterminedMsg)) ∧
    (∀ p q : Option Str, ∃ b r, compareProvinces G p q = (b, r)) := by
  refine ⟨rfl, ?_, fun p q => ⟨_, _, rfl⟩⟩
  intro p q hpq
  have hf : (truthy p && truthy q) = false := by
    rcases hpq with rfl | rfl | rfl | rfl <;> simp [truthy]
  unfold compareProvinces
  rw [if_pos hf]

/-- Witness for C4 at concrete inputs: an absent first province yields the
undetermined reason, and the empty address extracts to `none`. -/
theorem empty_input_total_witness :
    compareProvinces G0 none (some ("Alpha".toList)) = (false, undeterminedMsg) ∧
    extractProvince G0 [] = none :=
  ⟨(empty_input_total G0).2.1 none (some ("Alpha".toList)) (Or.inl rfl),
    (empty_input_total G0).1⟩

/-- C5: exact-match reflexivity.  For every non-empty province string `P`,
`compare_provinces(P, P)` is `(True, "Exact match")`: the string-equality
check precedes every merge lookup, so an equal pair never reaches a merge or
mismatch branch. -/
theorem exact_match_reflexive (G : GroundTruth) (P : Str) (h : P ≠ []) :
    compareProvinces G (some P) (some P) = (true, exactMsg) := by
  unfold compareProvinces
  have ht : truthy (some P) = true := by simp [truthy, h]
  rw [ht]
  simp

/-- Witness for C5 at a concrete province name. -/
theorem exact_match_reflexive_witness :
    compareProvinces G0 (some ("Alpha".toList)) (some ("Alpha".toList)) =
      (true, exactMsg) :=
  exact_match_reflexive G0 "Alpha".toList (by decide)

/-- C10: closed-range invariant of extraction.  Every value stored in the
`variant_to_official` index is one of the official names (the keys of the
ground-truth mapping), and consequently every province the core extractor
returns is a ground-truth key, never a mere variant string. -/
theorem extract_closed_range (G : GroundTruth) :
    (∀ e ∈ variantToOfficial G, e.2 ∈ G.map Prod.fst) ∧
    (∀ addr off : Str, extractProvince G addr = some off → off ∈ G.map Prod.fst) := by
  refine ⟨variantToOfficial_snd_mem G, ?_⟩
  intro addr off h
  obtain ⟨c, hc, hoff, -⟩ := extract_mem_cands h
  obtain ⟨vo, hvo, hco⟩ := List.mem_filterMap.mp hc
  have : c.official = vo.2 := by
    rcases hfm : findMatch (addr.map pyToLower) vo.1 (vo.1.map pyToLower) with _ | pb
    · rw [hfm] at hco; simp at hco
    · rw [hfm] at hco; simp at hco; rw [← hco]
  rw [hoff, this]
  exact variantToOfficial_snd_mem G vo hvo

/-- Witness for C10: the concrete extraction on `G0` lands on a ground-truth
key. -/
theorem extract_closed_range_witness :
    "Alpha".toList ∈ G0.map Prod.fst :=
  (extract_closed_range G0).2 addr0 ("Alpha".toList) (by decide)

/-! ### C3: the short-token guard -/

/-- Modelled from the spec's words (for comparison with the source, which
uses the regex class `D` built on `\s`): the claim's literal delimiter set
`{space, comma, semicolon, period, hyphen, slash}`. -/
def specClaimDelim (c : Char) : Bool :=
  c == ' ' || c == ',' || c == ';' || c == '.' || c == '-' || c == '/'

/-- Whether `v` occurs somewhere in `al` delimited on both sides by
start/end of string or a character of the spec's claimed delimiter set. -/
def specDelimitedOccurs (al v : Str) : Bool :=
  (List.range (al.length + 1)).any (fun q =>
    matchAt al v q &&
    (q == 0 ||
      (match al[q - 1]? with | some c => specClaimDelim c | none => false)) &&
    ((q + v.length) == al.length ||
      (match al[q + v.length]? with | some c => specClaimDelim c | none => false)))

/-- Ground truth with a single 2-character variant. -/
def G3 : GroundTruth := [("Alpha".toList, ["ab".toList])]

/-- Address in which that variant occurs delimited by a tab. -/
def addrTab : Str := "x\tab".toList

/-- Counterexample to C3 as stated: the 2-character variant `ab` of `G3`
occurs in `"x\tab"` only preceded by a tab — which is not in the claim's
delimiter set `{space, comma, semicolon, period, hyphen, slash}` — yet the
extractor does record a candidate for it (the regex `\s` also matches tab)
and returns `Alpha`, where the claim predicts no candidate at all. -/
theorem short_token_guard_counterexample :
    "ab".toList.length < 4 ∧
    extractProvince G3 addrTab = some ("Alpha".toList) ∧
    (∃ c ∈ candsCore G3 (addrTab.map pyToLower), c.variant = "ab".toList) ∧
    specDelimitedOccurs (addrTab.map pyToLower) ("ab".toList.map pyToLower) = false := by
  decide

/-- C3 (amended: the delimiter set is the regex class `D`, i.e. the claim's
six characters with "space" widened to the whitespace characters matched by
`\s`): a variant whose raw string length is under 4 only ever produces a
candidate flagged as a word-boundary match, with an occurrence delimited on
both sides by start/end of string or a delimiter character; and a variant of
raw length at least 4 whose boundary probe fails may still match as a bare
substring at its first occurrence, flagged as non-boundary. -/
theorem short_token_guard (G : GroundTruth) (addr : Str) :
    (∀ c ∈ candsCore G (addr.map pyToLower), c.variant.length < 4 →
      c.boundary = true ∧
      ∃ q, matchAt (addr.map pyToLower) (c.variant.map pyToLower) q = true ∧
        (q = 0 ∨ delimAt (addr.map pyToLower) (q - 1) = true) ∧
        rightBoundOk (addr.map pyToLower) (q + c.variant.length) = true) ∧
    (∀ al v : Str, 4 ≤ v.length → wbSearch al (v.map pyToLower) = none →
      findMatch al v (v.map pyToLower) =
        (subFind al (v.map pyToLower)).map (fun p => (p, false))) := by
  constructor
  · intro c hc hshort
    obtain ⟨vo, hvo, hmk⟩ := List.mem_filterMap.mp hc
    rcases hfm : findMatch (addr.map pyToLower) vo.1 (vo.1.map pyToLower) with _ | pb
    · rw [hfm] at hmk; simp at hmk
    · rw [hfm] at hmk
      simp only [Option.map_some', Option.some.injEq] at hmk
      have hvariant : c.variant = vo.1 := by rw [← hmk]
      have hpos : c.position = pb.1 := by rw [← hmk]
      have hbd : c.boundary = pb.2 := by rw [← hmk]
      unfold findMatch at hfm
      rcases hwb : wbSearch (addr.map pyToLower) (vo.1.map pyToLower) with _ | p
      · rw [hwb] at hfm
        have : ¬(4 ≤ vo.1.length) := by
          rw [← hvariant]; omega
        rw [if_neg this] at hfm
        simp at hfm
      · rw [hwb] at hfm
        have hpb : pb = (p, true) := by
          simpa using hfm.symm
        have hbtrue : c.boundary = true := by rw [hbd, hpb]
        refine ⟨hbtrue, ?_⟩
        have hhit : boundaryHit (addr.map pyToLower) (vo.1.map pyToLower) p = true :=
          List.find?_some hwb
        have hlen : (vo.1.map pyToLower).length = c.variant.length := by
          rw [hvariant, List.length_map]
        simp only [boundaryHit, Bool.or_eq_true, Bool.and_eq_true, beq_iff_eq] at hhit
        rcases hhit with ⟨⟨-, hm⟩, hr⟩ | ⟨⟨hd, hm⟩, hr⟩
        · refine ⟨0, by rw [hvariant]; exact hm, Or.inl rfl, ?_⟩
          rw [Nat.zero_add, ← hlen]
          exact hr
        · refine ⟨p + 1, by rw [hvariant]; exact hm, Or.inr (by simpa using hd), ?_⟩
          rw [← hlen]
          exact hr
  · intro al v h4 hwb
    unfold findMatch
    rw [hwb, if_pos h4]

/-- Ground truth and address for the C3 witness: `ab` delimited by a plain
space. -/
def addrSp : Str := "x ab".toList

/-- Witness for the amended C3: on `G3` and `"x ab"`, the unique candidate
for the 2-character variant `ab` is a boundary match, delimited at offset 2
by the space on its left and the end of the string on its right. -/
theorem short_token_guard_witness :
    (⟨"Alpha".toList, "ab".toList, 1, true, 2⟩ : Candidate).boundary = true ∧
    ∃ q, matchAt (addrSp.map pyToLower)
        ((⟨"Alpha".toList, "ab".toList, 1, true, 2⟩ : Candidate).variant.map pyToLower) q = true ∧
      (q = 0 ∨ delimAt (addrSp.map pyToLower) (q - 1) = true) ∧
      rightBoundOk (addrSp.map pyToLower)
        (q + (⟨"Alpha".toList, "ab".toList, 1, true, 2⟩ : Candidate).variant.length) = true :=
  (short_token_guard G3 addrSp).1 ⟨"Alpha".toList, "ab".toList, 1, true, 2⟩
    (by decide) (by decide)

/-! ### C7: case insensitivity -/

/-- Two strings are equal up to ASCII letter case exactly when their
character-wise ASCII lowerings agree. -/
def caseEquiv (a b : Str) : Prop := a.map pyToLower = b.map pyToLower

instance (a b : Str) : Decidable (caseEquiv a b) := by unfold caseEquiv; infer_instance

/-- Ground truth whose single variant contains the normalization-sensitive
cluster `hoà`. -/
def G1 : GroundTruth := [("Prov".toList, ["hoà x".toList])]

/-- Address equal to that variant. -/
def addrHoa1 : Str := "hoà x".toList

/-- The same address with the case of the ASCII letter `o` changed. -/
def addrHoa2 : Str := "hOà x".toList

/-- Counterexample to C7 as stated for the normalization-based extractors of
`compare_address_pairs.py` / `gradio_app.py`: `"hoà x"` and `"hOà x"` differ
only in the case of the ASCII letter `o`, yet the first extracts to `Prov`
and the second to `none`, because `normalize_vietnamese` rewrites the exact
pattern `hoà` to `hòa` but leaves `hOà` alone. -/
theorem case_insensitive_counterexample :
    caseEquiv addrHoa1 addrHoa2 ∧
    extractProvinceScored G1 addrHoa1 = some ("Prov".toList) ∧
    extractProvinceScored G1 addrHoa2 = none := by
  refine ⟨by decide, by decide, by decide⟩

/-- C7 (amended: restricted to the core matcher of
`src/src/province_comparator.py`, which lowercases but does not apply
`normalize_vietnamese`): `extract_province` is invariant under changing the
case of any ASCII letters of the address. -/
theorem case_insensitive_core (G : GroundTruth) (a b : Str) (h : caseEquiv a b) :
    extractProvince G a = extractProvince G b := by
  unfold caseEquiv at h
  have hemp : a.isEmpty = b.isEmpty := by
    cases a <;> cases b <;> first | rfl | (exfalso; simp at h)
  unfold extractProvince
  rw [hemp, h]

/-- Witness for the amended C7 at concrete inputs differing in ASCII case. -/
theorem case_insensitive_core_witness :
    extractProvince G0 ("EFGH aBCd".toList) = extractProvince G0 ("efgh Abcd".toList) :=
  case_insensitive_core G0 ("EFGH aBCd".toList) ("efgh Abcd".toList) (by decide)

/-! ### Helper lemmas for the merge relation -/

theorem dlookup_mergeInsert_isSome {idx : Dict} {newP : Str} {d : Dict} {k : Str}
    (h : (dlookup d k).isSome = true) (old : Str) :
    (dlookup (mergeInsert idx newP d old) k).isSome = true := by
  by_cases htok : hasLegacyToken old = true
  · simp only [mergeInsert, if_pos htok, dlookup_dinsert]
    split
    · rfl
    · exact h
  · simpa only [mergeInsert, if_neg htok] using h

theorem inner_merge_mono (idx : Dict) (newP : Str) (olds : List Str) :
    ∀ (d : Dict) (k : Str), (dlookup d k).isSome = true →
      (dlookup (olds.foldl (mergeInsert idx newP) d) k).isSome = true := by
  induction olds with
  | nil => intro d k h; exact h
  | cons o os ih => intro d k h; exact ih _ _ (dlookup_mergeInsert_isSome h o)

theorem merged_fold_mono (idx : Dict) (G' : GroundTruth) :
    ∀ (d : Dict) (k : Str), (dlookup d k).isSome = true →
      (dlookup (G'.foldl (fun d pr => pr.2.foldl (mergeInsert idx pr.1) d) d) k).isSome
        = true := by
  induction G' with
  | nil => intro d k h; exact h
  | cons q Gt ih => intro d k h; exact ih _ _ (inner_merge_mono idx q.1 q.2 d k h)

theorem inner_merge_inserts (idx : Dict) (newP : Str) (olds : List Str) :
    ∀ (d : Dict) (old : Str), old ∈ olds → hasLegacyToken old = true →
      (dlookup (olds.foldl (mergeInsert idx newP) d) (resolveOld idx old)).isSome = true := by
  induction olds with
  | nil => intro d old h; exact absurd h (List.not_mem_nil old)
  | cons o os ih =>
    intro d old hmem htok
    rcases List.mem_cons.mp hmem with rfl | hmem'
    · apply inner_merge_mono idx newP os
      simp only [mergeInsert, if_pos htok, dlookup_dinsert, if_pos rfl]
      rfl
    · exact ih _ old hmem' htok

theorem merged_fold_inserts (idx : Dict) (G' : GroundTruth) :
    ∀ (d : Dict) (pr : Str × List Str) (old : Str), pr ∈ G' → old ∈ pr.2 →
      hasLegacyToken old = true →
      (dlookup (G'.foldl (fun d pr => pr.2.foldl (mergeInsert idx pr.1) d) d)
        (resolveOld idx old)).isSome = true := by
  induction G' with
  | nil => intro d pr old h; exact absurd h (List.not_mem_nil pr)
  | cons q Gt ih =>
    intro d pr old hpr hold htok
    rcases List.mem_cons.mp hpr with rfl | hpr'
    · exact merged_fold_mono idx Gt _ _ (inner_merge_inserts idx pr.1 pr.2 d old hold htok)
    · exact ih _ pr old hpr' hold htok

theorem dlookup_mergeInsert_origin {idx : Dict} {newP : Str} {d : Dict} {old k v : Str}
    (h : dlookup (mergeInsert idx newP d old) k = some v) :
    (hasLegacyToken old = true ∧ k = resolveOld idx old ∧ v = newP) ∨
      dlookup d k = some v := by
  by_cases htok : hasLegacyToken old = true
  · rw [mergeInsert, if_pos htok, dlookup_dinsert] at h
    by_cases hk : k = resolveOld idx old
    · rw [if_pos hk] at h
      exact Or.inl ⟨htok, hk, (Option.some.inj h).symm⟩
    · rw [if_neg hk] at h
      exact Or.inr h
  · rw [mergeInsert, if_neg htok] at h
    exact Or.inr h

theorem inner_merge_origin (idx : Dict) (newP : Str) (olds : List Str)
    {Q : Str → Str → Prop}
    (hQ : ∀ old ∈ olds, hasLegacyToken old = true → Q (resolveOld idx old) newP) :
    ∀ d : Dict, (∀ k v, dlookup d k = some v → Q k v) →
      ∀ k v, dlookup (olds.foldl (mergeInsert idx newP) d) k = some v → Q k v := by
  induction olds with
  | nil => intro d hd; exact hd
  | cons o os ih =>
    intro d hd k v h
    refine ih (fun old ho ht => hQ old (List.mem_cons_of_mem _ ho) ht) _ ?_ k v h
    intro k' v' h'
    rcases dlookup_mergeInsert_origin h' with ⟨ht, rfl, rfl⟩ | h''
    · exact hQ o (List.mem_cons_self _ _) ht
    · exact hd _ _ h''

theorem merged_fold_origin (idx : Dict) (G' : GroundTruth) {Q : Str → Str → Prop}
    (hQ : ∀ pr ∈ G', ∀ old ∈ pr.2, hasLegacyToken old = true →
      Q (resolveOld idx old) pr.1) :
    ∀ d : Dict, (∀ k v, dlookup d k = some v → Q k v) →
      ∀ k v,
        dlookup (G'.foldl (fun d pr => pr.2.foldl (mergeInsert idx pr.1) d) d) k = some v →
        Q k v := by
  induction G' with
  | nil => intro d hd; exact hd
  | cons q Gt ih =>
    intro d hd k v h
    refine ih (fun pr hpr old ho ht => hQ pr (List.mem_cons_of_mem _ hpr) old ho ht)
      _ ?_ k v h
    exact inner_merge_origin idx q.1 q.2
      (fun old ho ht => hQ q (List.mem_cons_self _ _) old ho ht) d hd

/-! ### C6 and C8 -/

/-- C6: merge transitivity.  If two distinct non-empty province names `A`
and `B` are both keys of the merge relation and map to the same new province
`C`, then `compare_provinces(A, B)` is a match; and when `C` differs from
both inputs (so neither direct-merge branch fires), the reason is the
both-merged-into-`C` message. -/
theorem merge_transitive (G : GroundTruth) (A B C : Str)
    (hA : A ≠ []) (hB : B ≠ []) (hAB : A ≠ B)
    (h1 : dlookup (mergedProvinces G) A = some C)
    (h2 : dlookup (mergedProvinces G) B = some C) :
    (compareProvinces G (some A) (some B)).1 = true ∧
    (C ≠ B → C ≠ A →
      compareProvinces G (some A) (some B) = (true, bothMergedMsg C)) := by
  have htA : truthy (some A) = true := by simp [truthy, hA]
  have htB : truthy (some B) = true := by simp [truthy, hB]
  constructor
  · by_cases hCB : C = B
    · simp [compareProvinces, htA, htB, hAB, h1, h2, hCB]
    · by_cases hCA : C = A
      · simp [compareProvinces, htA, htB, hAB, h1, h2, hCB, hCA]
      · simp [compareProvinces, htA, htB, hAB, h1, h2, hCB, hCA]
  · intro hCB hCA
    simp [compareProvinces, htA, htB, hAB, h1, h2, hCB, hCA]

/-- Ground truth for the merge witnesses: `Gamma` lists the full legacy
names `TP Alpha` and `TP Beta`, which are also (later) official entries of
their own, so both resolve to themselves and the merge relation carries
`TP Alpha → Gamma` and `TP Beta → Gamma`. -/
def Gm : GroundTruth :=
  [("Gamma".toList, ["TP Alpha".toList, "TP Beta".toList]),
   ("TP Alpha".toList, []), ("TP Beta".toList, [])]

/-- Witness for C6: two distinct old provinces merged into `Gamma` compare
as a match with the both-merged reason. -/
theorem merge_transitive_witness :
    (compareProvinces Gm (some ("TP Alpha".toList)) (some ("TP Beta".toList))).1 = true ∧
    ("Gamma".toList ≠ "TP Beta".toList → "Gamma".toList ≠ "TP Alpha".toList →
      compareProvinces Gm (some ("TP Alpha".toList)) (some ("TP Beta".toList)) =
        (true, bothMergedMsg ("Gamma".toList))) :=
  merge_transitive Gm ("TP Alpha".toList) ("TP Beta".toList) ("Gamma".toList)
    (by decide) (by decide) (by decide) (by decide) (by decide)

/-- C8: construction of the merge relation.  A variant string is recorded
exactly when its literal text contains a legacy-designator token: every
token-bearing variant's resolution through the variant index is a key of
`merged_provinces`, and conversely every recorded pair `k → v` arises from
some ground-truth entry `(v, olds)` and token-bearing `old ∈ olds` with
`k = resolve(old)` (the resolution falling back to the literal string when
the index misses it). -/
theorem merge_relation_spec (G : GroundTruth) :
    (∀ pr ∈ G, ∀ old ∈ pr.2, hasLegacyToken old = true →
      (dlookup (mergedProvinces G) (resolveOld (variantToOfficial G) old)).isSome = true) ∧
    (∀ k v : Str, dlookup (mergedProvinces G) k = some v →
      ∃ pr ∈ G, ∃ old ∈ pr.2, hasLegacyToken old = true ∧
        k = resolveOld (variantToOfficial G) old ∧ v = pr.1) := by
  constructor
  · intro pr hpr old hold htok
    exact merged_fold_inserts (variantToOfficial G) G [] pr old hpr hold htok
  · intro k v h
    refine merged_fold_origin (variantToOfficial G) G
      (Q := fun k v => ∃ pr ∈ G, ∃ old ∈ pr.2, hasLegacyToken old = true ∧
        k = resolveOld (variantToOfficial G) old ∧ v = pr.1) ?_ [] ?_ k v h
    · intro pr hpr old ho ht
      exact ⟨pr, hpr, old, ho, ht, rfl, rfl⟩
    · intro k' v' h'
      simp [dlookup] at h'

/-- Witness for C8: the token-bearing variant `TP Alpha` of `Gm` is indeed
recorded in the merge relation under its resolution. -/
theorem merge_relation_spec_witness :
    (dlookup (mergedProvinces Gm)
      (resolveOld (variantToOfficial Gm) ("TP Alpha".toList))).isSome = true :=
  (merge_relation_spec Gm).1 ("Gamma".toList, ["TP Alpha".toList, "TP Beta".toList])
    (by decide) ("TP Alpha".toList) (by decide) (by decide)

/-! ### Helper lemmas for the scoring extractor -/

theorem replace3_length (p1 p2 p3 r1 r2 r3 : Char) :
    ∀ s : Str, (replace3 p1 p2 p3 r1 r2 r3 s).length = s.length
  | [] => rfl
  | [_] => rfl
  | [_, _] => rfl
  | a :: b :: c :: rest => by
    simp only [replace3]
    split
    · simp [replace3_length p1 p2 p3 r1 r2 r3 rest]
    · simp [replace3_length p1 p2 p3 r1 r2 r3 (b :: c :: rest)]

theorem normalizeViet_length (s : Str) : (normalizeViet s).length = s.length := by
  simp [normalizeViet, replace3_length]

theorem scoreOf_lt_of_position_lt {L : ℕ} (hL : 0 < L) {c₁ c₂ : SCand}
    (hlen : c₁.variant.length = c₂.variant.length) (hb : c₁.boundary = c₂.boundary)
    (hsp : c₁.variant.contains ' ' = c₂.variant.contains ' ')
    (hpos : c₁.position < c₂.position) :
    scoreOf L c₁ < scoreOf L c₂ := by
  unfold scoreOf
  rw [hlen, hb, hsp]
  have hLQ : (0 : ℚ) < (L : ℚ) := by exact_mod_cast hL
  have hdiv : (c₁.position : ℚ) / (L : ℚ) * 50 < (c₂.position : ℚ) / (L : ℚ) * 50 := by
    gcongr
  linarith

/-- Core fact about the scoring extractor: a returned province is the
official name of a maximum-score candidate. -/
theorem extractScored_mem_cands {G : GroundTruth} {addr off : Str}
    (h : extractProvinceScored G addr = some off) :
    ∃ c ∈ candsScored G ((normalizeViet addr).map pyToLower), off = c.official ∧
      ∀ c' ∈ candsScored G ((normalizeViet addr).map pyToLower),
        scoreOf ((normalizeViet addr).map pyToLower).length c' ≤
          scoreOf ((normalizeViet addr).map pyToLower).length c := by
  unfold extractProvinceScored at h
  split at h
  · simp at h
  · rcases hs : List.insertionSort (scoredGE ((normalizeViet addr).map pyToLower).length)
        (candsScored G ((normalizeViet addr).map pyToLower)) with _ | ⟨a, t⟩
    · rw [hs] at h; simp at h
    · have hne : List.insertionSort (scoredGE ((normalizeViet addr).map pyToLower).length)
          (candsScored G ((normalizeViet addr).map pyToLower)) ≠ [] := by
        rw [hs]; simp
      have hh : (List.insertionSort (scoredGE ((normalizeViet addr).map pyToLower).length)
          (candsScored G ((normalizeViet addr).map pyToLower))).head? =
          some ((List.insertionSort (scoredGE ((normalizeViet addr).map pyToLower).length)
            (candsScored G ((normalizeViet addr).map pyToLower))).head hne) :=
        List.head?_eq_head hne
      rw [hh, Option.map_some'] at h
      have hoff := Option.some.inj h
      have hperm := List.perm_insertionSort
        (scoredGE ((normalizeViet addr).map pyToLower).length)
        (candsScored G ((normalizeViet addr).map pyToLower))
      refine ⟨_, hperm.mem_iff.mp (List.head_mem hne), hoff.symm, ?_⟩
      intro c' hc'
      exact sorted_head_min _ (List.sorted_insertionSort _ _) hne c' (hperm.mem_iff.mpr hc')

/-- Evaluation of the scoring extractor on the concrete pair `G0`,
`"efgh abcd"`: the `abcd` candidate (owner `Alpha`) starts later and its
positional term is therefore larger, so `Alpha` wins. -/
theorem scoredEvalG0 : extractProvinceScored G0 addr0 = some ("Alpha".toList) := by
  have hcands : candsScored G0 ((normalizeViet addr0).map pyToLower) =
      [⟨"Alpha".toList, "abcd".toList, 4, true⟩, ⟨"Beta".toList, "efgh".toList, 0, true⟩] := by
    decide
  have hL : ((normalizeViet addr0).map pyToLower).length = 9 := by decide
  have hge : scoredGE 9 ⟨"Alpha".toList, "abcd".toList, 4, true⟩
      ⟨"Beta".toList, "efgh".toList, 0, true⟩ := by
    show scoreOf 9 ⟨"Beta".toList, "efgh".toList, 0, true⟩ ≤
      scoreOf 9 ⟨"Alpha".toList, "abcd".toList, 4, true⟩
    have h1 : ("abcd".toList).length = 4 := by decide
    have h2 : ("efgh".toList).length = 4 := by decide
    have h3 : ("abcd".toList).contains ' ' = false := by decide
    have h4 : ("efgh".toList).contains ' ' = false := by decide
    unfold scoreOf
    simp only [h1, h2, h3, h4]
    norm_num
  have hemp : addr0.isEmpty = false := by decide
  unfold extractProvinceScored
  rw [hemp, hL, hcands]
  simp only [Bool.false_eq_true, if_false, List.insertionSort, List.orderedInsert,
    if_pos hge, List.head?_cons, Option.map_some']

/-- C2 (corrected): the positional term of the score favors LATER
occurrences, not earlier ones.  Counterexample to the claim as stated: on
`G0` and `"efgh abcd"` the two candidates are tied on variant length,
boundary flag and the multi-word bonus, the `efgh` candidate (owner `Beta`)
occurs earlier (offset 0 versus 4), yet the extractor returns `Alpha` — the
owner of the later occurrence — where the claim predicts `Beta`. -/
theorem scored_positional_counterexample :
    extractProvinceScored G0 addr0 = some ("Alpha".toList) ∧
    candsScored G0 ((normalizeViet addr0).map pyToLower) =
      [⟨"Alpha".toList, "abcd".toList, 4, true⟩, ⟨"Beta".toList, "efgh".toList, 0, true⟩] ∧
    ("abcd".toList).length = ("efgh".toList).length ∧
    ("abcd".toList).contains ' ' = ("efgh".toList).contains ' ' ∧
    "Alpha".toList ≠ "Beta".toList :=
  ⟨scoredEvalG0, by decide, by decide, by decide, by decide⟩

/-- C2 (amended: the positional tie-breaker `position / len(address) * 50`
favors later occurrences — among candidates tied on length, boundary flag
and the multi-word bonus, the candidate occurring later in the address
wins): every returned province is the official name of a maximum-score
candidate, where the score is `length(variant) * 100`, plus `1000` for a
boundary match, plus `500` for a variant containing a space, plus
`position / len(address) * 50`; and the positional term makes the score
strictly increasing in the position among candidates tied on the other
three components. -/
theorem extract_scored_best (G : GroundTruth) (addr off : Str)
    (h : extractProvinceScored G addr = some off) :
    (∃ c ∈ candsScored G ((normalizeViet addr).map pyToLower), off = c.official ∧
      ∀ c' ∈ candsScored G ((normalizeViet addr).map pyToLower),
        scoreOf ((normalizeViet addr).map pyToLower).length c' ≤
          scoreOf ((normalizeViet addr).map pyToLower).length c) ∧
    (∀ c₁ c₂ : SCand, c₁.variant.length = c₂.variant.length →
      c₁.boundary = c₂.boundary →
      c₁.variant.contains ' ' = c₂.variant.contains ' ' →
      c₁.position < c₂.position →
      scoreOf ((normalizeViet addr).map pyToLower).length c₁ <
        scoreOf ((normalizeViet addr).map pyToLower).length c₂) := by
  refine ⟨extractScored_mem_cands h, ?_⟩
  have haddr : addr ≠ [] := by
    intro hnil
    rw [hnil] at h
    simp [extractProvinceScored] at h
  have hL : 0 < ((normalizeViet addr).map pyToLower).length := by
    rw [List.length_map, normalizeViet_length]
    exact List.length_pos.mpr haddr
  intro c₁ c₂ hlen hb hsp hpos
  exact scoreOf_lt_of_position_lt hL hlen hb hsp hpos

/-- Witness for the amended C2 at the concrete inputs `G0`, `"efgh abcd"`:
the returned `Alpha` is the official name of a maximum-score candidate, and
the positional strict monotonicity holds for this address. -/
theorem extract_scored_best_witness :
    (∃ c ∈ candsScored G0 ((normalizeViet addr0).map pyToLower),
      "Alpha".toList = c.official ∧
      ∀ c' ∈ candsScored G0 ((normalizeViet addr0).map pyToLower),
        scoreOf ((normalizeViet addr0).map pyToLower).length c' ≤
          scoreOf ((normalizeViet addr0).map pyToLower).length c) ∧
    (∀ c₁ c₂ : SCand, c₁.variant.length = c₂.variant.length →
      c₁.boundary = c₂.boundary →
      c₁.variant.contains ' ' = c₂.variant.contains ' ' →
      c₁.position < c₂.position →
      scoreOf ((normalizeViet addr0).map pyToLower).length c₁ <
        scoreOf ((normalizeViet addr0).map pyToLower).length c₂) :=
  extract_scored_best G0 addr0 ("Alpha".toList) scoredEvalG0

/-! ### C9: batch row skipping -/

/-- C9: row handling of the `process_csv` batch loop.  Processing a row list
is exactly a `filterMap` of the per-row function — each row is handled
independently, so a skipped or malformed row never aborts the remaining
rows; a row yields a record precisely when it has at least 3 fields, is not
excluded by a 4th-field `MISMATCH` / `Ambiguity` label, and both its
addresses are non-empty after stripping; and the record of every retained
row is produced by `compare_address_pair` on the stripped fields. -/
theorem batch_row_skipping (G : GroundTruth) :
    (∀ rows : List (List Str), processRows G rows = rows.filterMap (rowResult G)) ∧
    (∀ row : List Str,
      (rowResult G row).isSome = true ↔
        (3 ≤ row.length ∧
         ¬(3 < row.length ∧ (row.getD 3 []) ∈ skipLabels) ∧
         pyStrip (row.getD 1 []) ≠ [] ∧ pyStrip (row.getD 2 []) ≠ [])) ∧
    (∀ (row : List Str) (r : PairResult), rowResult G row = some r →
      r = compareAddressPair G (pyStrip (row.getD 1 [])) (pyStrip (row.getD 2 []))
            (pyStrip (row.getD 0 []))) := by
  refine ⟨?_, ?_, ?_⟩
  · intro rows
    induction rows with
    | nil => rfl
    | cons row rest ih =>
      cases h : rowResult G row with
      | none => simp [processRows, h, ih, List.filterMap_cons]
      | some r => simp [processRows, h, ih, List.filterMap_cons]
  · intro row
    unfold rowResult
    by_cases h1 : row.length < 3
    · simp only [if_pos h1, Option.isSome_none]
      constructor
      · intro hh; exact absurd hh (by simp)
      · rintro ⟨h2, -, -, -⟩; omega
    · rw [if_neg h1]
      by_cases h2 : 3 < row.length ∧ (row.getD 3 []) ∈ skipLabels
      · simp only [if_pos h2, Option.isSome_none]
        constructor
        · intro hh; exact absurd hh (by simp)
        · rintro ⟨-, h3, -, -⟩; exact absurd h2 h3
      · rw [if_neg h2]
        by_cases h3 : pyStrip (row.getD 1 []) ≠ [] ∧ pyStrip (row.getD 2 []) ≠ []
        · simp only [if_pos h3, Option.isSome_some, true_iff]
          exact ⟨by omega, h2, h3.1, h3.2⟩
        · simp only [if_neg h3, Option.isSome_none]
          constructor
          · intro hh; exact absurd hh (by simp)
          · rintro ⟨-, -, h4, h5⟩; exact absurd ⟨h4, h5⟩ h3
  · intro row r h
    unfold rowResult at h
    split at h
    · exact absurd h (by simp)
    · split at h
      · exact absurd h (by simp)
      · split at h
        · exact (Option.some.inj h).symm
        · exact absurd h (by simp)

/-- Concrete well-formed CSV row for the C9 witness. -/
def rowB : List Str := ["1".toList, "abcd".toList, "efgh".toList]

/-- Witness for C9: the concrete retained row `rowB` contributes exactly the
record computed by `compare_address_pair` on its stripped fields. -/
theorem batch_row_skipping_witness :
    compareAddressPair G0 ("abcd".toList) ("efgh".toList) ("1".toList) =
      compareAddressPair G0 (pyStrip (rowB.getD 1 [])) (pyStrip (rowB.getD 2 []))
        (pyStrip (rowB.getD 0 [])) :=
  (batch_row_skipping G0).2.2 rowB
    (compareAddressPair G0 ("abcd".toList) ("efgh".toList) ("1".toList)) (by decide)
